import Mathlib

/-!
Verification development for the `countries` repository.

The embedded code is the section-list extractor `parse_youtube_links`,
the aggregation/deduplication step of `main` (both in
`getYoutubeLinks.py`), and the filename sanitiser `safe_filename`
(in `getCountryData.py`).

Strings are modelled as `List Char`.  Python's `str.strip` removes
whitespace from both ends; we model the whitespace class by the ASCII
whitespace characters (space, tab, newline, carriage return, vertical
tab, form feed), and case folding by `Char.toLower`, which agrees with
Python's behaviour on the ASCII text the program manipulates.
-/

/-- ASCII whitespace, the characters Python's `str.strip` removes on
the text this program sees. -/
def isWS (c : Char) : Bool :=
  c == ' ' || c == '\t' || c == '\n' || c == '\r' || c == '\u000B' || c == '\u000C'

/-- Python `str.lstrip`. -/
def stripLeft (s : List Char) : List Char := s.dropWhile isWS

/-- Python `str.rstrip`. -/
def stripRight (s : List Char) : List Char := (s.reverse.dropWhile isWS).reverse

/-- Python `str.strip()`: drop whitespace from both ends. -/
def strip (s : List Char) : List Char := stripRight (stripLeft s)

/-- Helper for `splitlines`: accumulates the current line (reversed). -/
def splitlinesGo (cur : List Char) : List Char → List (List Char)
  | [] => if cur.isEmpty then [] else [cur.reverse]
  | c :: cs =>
    if c == '\n' then cur.reverse :: splitlinesGo [] cs
    else splitlinesGo (c :: cur) cs

/-- Python `str.splitlines()` restricted to `'\n'` separators (the
only line separator the program produces: pages are joined with
`"\n"`).  A trailing newline does not yield a trailing empty line. -/
def splitlines (s : List Char) : List (List Char) := splitlinesGo [] s

/-- Python `line.endswith(":")`. -/
def endsWithColon (s : List Char) : Bool :=
  match s.getLast? with
  | some c => c == ':'
  | none => false

/-- `line.startswith("- ") or line.startswith("• ") or line.startswith("* ")`
from `parse_youtube_links`. -/
def isBulletLine (s : List Char) : Bool :=
  match s with
  | c :: d :: _ => d == ' ' && (c == '-' || c == '•' || c == '*')
  | _ => false

/-- `line = line[2:].strip()` applied when a bullet marker is present
(lines 65-66 of `getYoutubeLinks.py`). -/
def stripBullet (s : List Char) : List Char :=
  if isBulletLine s then strip (s.drop 2) else s

/-- The literal portion of the header regex, lower case. -/
def headerChars : List Char := "youtube links".data

/-- Case-insensitive character comparison (`re.IGNORECASE`). -/
def eqCI (a b : Char) : Bool := a.toLower == b.toLower

/-- Consume a literal pattern case-insensitively from the front of `s`,
returning the remainder on success. -/
def dropLitCI : List Char → List Char → Option (List Char)
  | [], s => some s
  | _ :: _, [] => none
  | p :: ps, c :: cs => if eqCI p c then dropLitCI ps cs else none

/-- The compiled regex `^\s*youtube links\s*:\s*$` with `re.IGNORECASE`,
as a whole-string matcher.  The colon is mandatory; arbitrary whitespace
may precede the literal, separate it from the colon, and follow the
colon. -/
def matchHeader (s : List Char) : Bool :=
  match dropLitCI headerChars (s.dropWhile isWS) with
  | none => false
  | some r =>
    match r.dropWhile isWS with
    | c :: r2 => c == ':' && (r2.dropWhile isWS).isEmpty
    | [] => false

/-- `pattern.match(lines[i].strip())` from line 55 of
`getYoutubeLinks.py`: the regex is applied to the stripped line. -/
def isHeaderLine (l : List Char) : Bool := matchHeader (strip l)

/-- A line at which the inner collection loop stops: stripped empty, or
stripped ending in a colon (lines 59-63). -/
def isTermLine (l : List Char) : Bool :=
  (strip l).isEmpty || endsWithColon (strip l)

/-- The inner `while` loop of `parse_youtube_links` (lines 57-69):
collect stripped lines until a terminator, stripping bullet markers and
skipping lines that end up empty. -/
def collectSection : List (List Char) → List (List Char)
  | [] => []
  | raw :: rest =>
    let line := strip raw
    if line.isEmpty then []
    else if endsWithColon line then []
    else
      let item := stripBullet line
      if item.isEmpty then collectSection rest else item :: collectSection rest

/-- The lines from the terminator onwards: after the inner loop ends at
index `j`, the outer loop resumes at `lines[j]` (line 70 sets `i = j`). -/
def afterSection (ls : List (List Char)) : List (List Char) :=
  ls.dropWhile (fun l => !isTermLine l)

/-- The outer `while` loop of `parse_youtube_links` (lines 53-72): scan
for a header line; on a match, collect the section and resume at the
terminator line; otherwise advance one line. -/
def parseLoop : List (List Char) → List (List Char)
  | [] => []
  | l :: rest =>
    if isHeaderLine l then
      collectSection rest ++ parseLoop (afterSection rest)
    else
      parseLoop rest
termination_by ls => ls.length
decreasing_by
  · have h2 : (afterSection rest).length ≤ rest.length := by
      unfold afterSection
      induction rest with
      | nil => simp
      | cons a t ih =>
        by_cases h : isTermLine a
        · simp [List.dropWhile, h]
        · simp only [List.dropWhile, h]
          exact Nat.le_trans ih (Nat.le_succ _)
    exact Nat.lt_succ_of_le h2
  · exact Nat.lt_succ_self _

/-- `parse_youtube_links` (lines 43-73 of `getYoutubeLinks.py`). -/
def parse_youtube_links (text : List Char) : List (List Char) :=
  if text.isEmpty then [] else parseLoop (splitlines text)

/-- The value a collected line contributes: strip, remove a leading
bullet marker, and drop the line when the result is empty. -/
def lineItem (l : List Char) : Option (List Char) :=
  let item := stripBullet (strip l)
  if item.isEmpty then none else some item

/-- The deduplication loop of `main` (lines 100-107): a `seen` set and
an output list, keeping a record only when its key is unseen. -/
def dedupGo {α : Type} [DecidableEq α] (seen : List α) : List α → List α
  | [] => []
  | r :: rs => if r ∈ seen then dedupGo seen rs else r :: dedupGo (r :: seen) rs

/-- `main`'s order-preserving deduplication, starting from an empty
`seen` set. -/
def dedup {α : Type} [DecidableEq α] (rs : List α) : List α := dedupGo [] rs

/-- The aggregation performed by `main` (lines 89-107) over a list of
(path, extracted text) documents: collect one `(source, link)` record
per extracted line, then deduplicate preserving first-seen order. -/
def aggregate (docs : List (List Char × List Char)) : List (List Char × List Char) :=
  dedup (docs.flatMap fun d => (parse_youtube_links d.2).map fun l => (d.1, l))

/-- `c.isalnum() or c in " -_."` from `safe_filename` (ASCII model of
Python's `isalnum`). -/
def keepChar (c : Char) : Bool :=
  c.isAlphanum || c == ' ' || c == '-' || c == '_' || c == '.'

/-- `safe_filename` (lines 80-81 of `getCountryData.py`): map each
character, keeping the allowed ones and replacing the rest with an
underscore, then `strip()` the result and fall back to `"unnamed"`
when it is empty. -/
def safe_filename (name : List Char) : List Char :=
  let s := strip (name.map fun c => if keepChar c then c else '_')
  if s.isEmpty then "unnamed".data else s

/-- Modelled from the claim wording of C2: a header match succeeds when
the entire trimmed line equals the label case-insensitively,
*optionally* followed by a colon and only whitespace. -/
def specHeaderMatchOptColon (l : List Char) : Bool :=
  match dropLitCI headerChars (strip l) with
  | none => false
  | some r =>
    let r1 := r.dropWhile isWS
    r1.isEmpty ||
      (match r1 with
       | ':' :: r2 => (r2.dropWhile isWS).isEmpty
       | _ => false)

/-- Modelled from the claim wording of C3: after a section, resume
scanning just *after* the terminator line rather than at it. -/
def parseLoopSpecResume : List (List Char) → List (List Char)
  | [] => []
  | l :: rest =>
    if isHeaderLine l then
      collectSection rest ++ parseLoopSpecResume ((afterSection rest).drop 1)
    else
      parseLoopSpecResume rest
termination_by ls => ls.length
decreasing_by
  · have h2 : (afterSection rest).length ≤ rest.length := by
      unfold afterSection
      induction rest with
      | nil => simp
      | cons a t ih =>
        by_cases h : isTermLine a
        · simp [List.dropWhile, h]
        · simp only [List.dropWhile, h]
          exact Nat.le_trans ih (Nat.le_succ _)
    simp only [List.length_drop, List.length_cons]
    omega
  · exact Nat.lt_succ_self _

/-- Modelled from the claim wording of C8: keep alphanumerics, space,
hyphen, underscore and dot, replace every other character with an
underscore, and fall back to a default name when the result is empty
(no trimming step). -/
def specSafeFilenameNoStrip (name : List Char) : List Char :=
  let s := name.map fun c => if keepChar c then c else '_'
  if s.isEmpty then "unnamed".data else s

/-- Modelled from the amended wording of C8: keep alphanumerics, space,
hyphen, underscore and dot, replace every other character with an underscore,
trim surrounding whitespace from the result, and fall back to the default
name when the trimmed result is empty. -/
def specSafeFilenameStripped (name : List Char) : List Char :=
  let mapped := name.map fun c =>
    if c.isAlphanum || c == ' ' || c == '-' || c == '_' || c == '.' then c else '_'
  if strip mapped = [] then "unnamed".data else strip mapped

/-! ### Basic facts about `strip` -/

theorem dropWhile_head_false {p : Char → Bool} {l t : List Char} {c : Char}
    (h : l.dropWhile p = c :: t) : p c = false := by
  induction l with
  | nil => simp at h
  | cons a l ih =>
    by_cases ha : p a
    · rw [List.dropWhile_cons_of_pos ha] at h
      exact ih h
    · rw [List.dropWhile_cons_of_neg ha] at h
      cases h
      exact Bool.of_not_eq_true ha

theorem dropWhile_cons_head_false {p : Char → Bool} {c : Char} (t : List Char)
    (h : p c = false) : (c :: t).dropWhile p = c :: t := by
  simp [List.dropWhile, h]

theorem dropWhile_append_all {p : Char → Bool} {a : List Char} (b : List Char)
    (h : ∀ c ∈ a, p c = true) : (a ++ b).dropWhile p = b.dropWhile p := by
  induction a with
  | nil => simp
  | cons x a ih =>
    have hx : p x = true := h x (by simp)
    simp only [List.cons_append, List.dropWhile_cons_of_pos hx]
    exact ih fun c hc => h c (by simp [hc])

theorem strip_nil : strip [] = [] := rfl

theorem stripLeft_head_false {s t : List Char} {c : Char}
    (h : stripLeft s = c :: t) : isWS c = false :=
  dropWhile_head_false h

theorem stripRight_suffix_decomp (s : List Char) :
    ∃ trail, s = stripRight s ++ trail ∧ ∀ c ∈ trail, isWS c = true := by
  refine ⟨(s.reverse.takeWhile isWS).reverse, ?_, ?_⟩
  · unfold stripRight
    have h := List.takeWhile_append_dropWhile isWS s.reverse
    have h2 : s.reverse.reverse = (s.reverse.takeWhile isWS ++ s.reverse.dropWhile isWS).reverse := by
      rw [h]
    simp only [List.reverse_reverse, List.reverse_append] at h2
    exact h2
  · intro c hc
    rw [List.mem_reverse] at hc
    exact List.mem_takeWhile_imp hc

theorem stripRight_getLast?_false {s : List Char} {c : Char}
    (h : (stripRight s).getLast? = some c) : isWS c = false := by
  unfold stripRight at h
  rw [List.getLast?_reverse] at h
  cases hd : s.reverse.dropWhile isWS with
  | nil => rw [hd] at h; simp at h
  | cons a t =>
    rw [hd] at h
    simp at h
    subst h
    exact dropWhile_head_false hd

theorem stripLeft_decomp (s : List Char) :
    ∃ lead, s = lead ++ stripLeft s ∧ ∀ c ∈ lead, isWS c = true := by
  refine ⟨s.takeWhile isWS, ?_, ?_⟩
  · exact (List.takeWhile_append_dropWhile isWS s).symm
  · intro c hc
    exact List.mem_takeWhile_imp hc

theorem strip_decomp (s : List Char) :
    ∃ lead trail, s = lead ++ strip s ++ trail ∧
      (∀ c ∈ lead, isWS c = true) ∧ ∀ c ∈ trail, isWS c = true := by
  obtain ⟨lead, h1, h2⟩ := stripLeft_decomp s
  obtain ⟨trail, h3, h4⟩ := stripRight_suffix_decomp (stripLeft s)
  refine ⟨lead, trail, ?_, h2, h4⟩
  calc s = lead ++ stripLeft s := h1
  _ = lead ++ (stripRight (stripLeft s) ++ trail) := by rw [← h3]
  _ = lead ++ strip s ++ trail := by simp [strip, List.append_assoc]

theorem strip_head_false {s t : List Char} {c : Char}
    (h : strip s = c :: t) : isWS c = false := by
  cases hsl : stripLeft s with
  | nil =>
    have h0 : strip s = [] := by
      unfold strip stripRight
      rw [hsl]
      rfl
    rw [h0] at h
    cases h
  | cons a u =>
    have ha : isWS a = false := stripLeft_head_false hsl
    obtain ⟨trail, hdec, _⟩ := stripRight_suffix_decomp (stripLeft s)
    have hdec2 : a :: u = c :: (t ++ trail) := by
      rw [← hsl, hdec, show stripRight (stripLeft s) = c :: t from h]
      simp
    have hac : a = c := by
      have h5 := congrArg List.head? hdec2
      simpa using h5
    exact hac ▸ ha

theorem strip_getLast?_false {s : List Char} {c : Char}
    (h : (strip s).getLast? = some c) : isWS c = false :=
  stripRight_getLast?_false h

theorem strip_eq_nil_iff {s : List Char} :
    strip s = [] ↔ ∀ c ∈ s, isWS c = true := by
  constructor
  · intro h c hc
    unfold strip stripRight at h
    have h2 : (stripLeft s).reverse.dropWhile isWS = [] := by
      have := congrArg List.reverse h
      simpa using this
    rw [List.dropWhile_eq_nil_iff] at h2
    obtain ⟨lead, hdec, hlead⟩ := stripLeft_decomp s
    rw [hdec] at hc
    rcases List.mem_append.mp hc with h3 | h3
    · exact hlead c h3
    · exact h2 c (List.mem_reverse.mpr h3)
  · intro h
    have h1 : stripLeft s = [] := by
      unfold stripLeft
      rw [List.dropWhile_eq_nil_iff]
      exact h
    unfold strip
    rw [h1]
    rfl

theorem strip_idem (s : List Char) : strip (strip s) = strip s := by
  cases hs : strip s with
  | nil => exact strip_nil
  | cons c t =>
    have hc : isWS c = false := strip_head_false hs
    have h1 : stripLeft (c :: t) = c :: t := dropWhile_cons_head_false t hc
    unfold strip
    rw [h1]
    unfold stripRight
    cases hr : (c :: t).reverse with
    | nil => simp at hr
    | cons b u =>
      have hb : isWS b = false := by
        have h3 : (c :: t).getLast? = some b := by
          rw [← List.head?_reverse, hr]
          rfl
        exact strip_getLast?_false (s := s) (by rw [hs]; exact h3)
      rw [dropWhile_cons_head_false u hb]
      have h4 := congrArg List.reverse hr
      simp only [List.reverse_reverse] at h4
      exact h4.symm

/-! ### Character and pattern lemmas -/

theorem getLast?_mem_list {l : List Char} {c : Char}
    (h : l.getLast? = some c) : c ∈ l := by
  induction l with
  | nil => simp at h
  | cons a t ih =>
    cases t with
    | nil =>
      simp at h
      simp [h]
    | cons b t2 =>
      rw [List.getLast?_cons_cons] at h
      exact List.mem_cons_of_mem a (ih h)

theorem isWS_toLower_eq {c : Char} (h : isWS c = true) : Char.toLower c = c := by
  simp [isWS] at h
  rcases h with ((((h1 | h1) | h1) | h1) | h1) | h1 <;> subst h1 <;> decide

theorem toLower_y_not_ws {c : Char} (h : Char.toLower c = 'y') : isWS c = false := by
  cases hws : isWS c with
  | false => rfl
  | true =>
    exfalso
    rw [isWS_toLower_eq hws] at h
    subst h
    exact absurd hws (by decide)

theorem eqCI_toLower {a b : Char} (h : eqCI a b = true) :
    Char.toLower a = Char.toLower b := by
  unfold eqCI at h
  exact beq_iff_eq.mp h

theorem dropLitCI_sound : ∀ (pat s r : List Char), dropLitCI pat s = some r →
    ∃ yl, s = yl ++ r ∧ yl.map Char.toLower = pat.map Char.toLower := by
  intro pat
  induction pat with
  | nil =>
    intro s r h
    have hs : some s = some r := h
    have hsr : s = r := by injection hs
    exact ⟨[], by simp [hsr], by simp⟩
  | cons p ps ih =>
    intro s r h
    cases s with
    | nil => cases h
    | cons c cs =>
      unfold dropLitCI at h
      by_cases hci : eqCI p c
      · rw [if_pos hci] at h
        obtain ⟨yl, h1, h2⟩ := ih cs r h
        refine ⟨c :: yl, by simp [h1], ?_⟩
        simp [h2, eqCI_toLower hci]
      · rw [if_neg hci] at h
        cases h

theorem dropLitCI_complete : ∀ (pat yl r : List Char),
    yl.map Char.toLower = pat.map Char.toLower →
    dropLitCI pat (yl ++ r) = some r := by
  intro pat
  induction pat with
  | nil =>
    intro yl r h
    simp at h
    simp [h, dropLitCI]
  | cons p ps ih =>
    intro yl r h
    cases yl with
    | nil => simp at h
    | cons c cs =>
      simp at h
      rw [List.cons_append]
      show (if eqCI p c = true then dropLitCI ps (cs ++ r) else none) = some r
      rw [if_pos ?_]
      · exact ih cs r h.2
      · unfold eqCI
        exact beq_iff_eq.mpr h.1.symm

/-! ### Structure of the extractor loops -/

theorem parseLoop_nil : parseLoop [] = [] := by rw [parseLoop]

theorem parseLoop_cons (l : List Char) (rest : List (List Char)) :
    parseLoop (l :: rest) =
      if isHeaderLine l then collectSection rest ++ parseLoop (afterSection rest)
      else parseLoop rest := by
  rw [parseLoop]

theorem parseLoop_append_noheader (pre ls : List (List Char))
    (h : ∀ l ∈ pre, isHeaderLine l = false) :
    parseLoop (pre ++ ls) = parseLoop ls := by
  induction pre with
  | nil => simp
  | cons p pre ih =>
    rw [List.cons_append, parseLoop_cons, if_neg]
    · exact ih fun l hl => h l (List.mem_cons_of_mem p hl)
    · simp [h p (List.mem_cons_self p pre)]

theorem parseLoop_eq_nil_of_noheader (ls : List (List Char))
    (h : ∀ l ∈ ls, isHeaderLine l = false) : parseLoop ls = [] := by
  have h2 := parseLoop_append_noheader ls [] h
  simpa [parseLoop_nil] using h2

theorem not_term_parts {l : List Char} (h : isTermLine l = false) :
    strip l ≠ [] ∧ endsWithColon (strip l) = false := by
  unfold isTermLine at h
  rw [Bool.or_eq_false_iff] at h
  constructor
  · intro hnil
    rw [hnil] at h
    simp at h
  · exact h.2

theorem term_parts {l : List Char} (h : isTermLine l = true) :
    (strip l).isEmpty = true ∨ endsWithColon (strip l) = true := by
  unfold isTermLine at h
  exact Bool.or_eq_true_iff.mp h

theorem collectSection_cons_not_term (l : List Char) (rest : List (List Char))
    (h : isTermLine l = false) :
    collectSection (l :: rest) =
      (lineItem l).toList ++ collectSection rest := by
  obtain ⟨h1, h2⟩ := not_term_parts h
  have h1' : (strip l).isEmpty = false := by
    cases hs : strip l with
    | nil => exact absurd hs h1
    | cons a t => rfl
  show (let line := strip l;
      if line.isEmpty then []
      else if endsWithColon line then []
      else
        let item := stripBullet line;
        if item.isEmpty then collectSection rest else item :: collectSection rest)
    = (lineItem l).toList ++ collectSection rest
  simp only [lineItem, h1', h2, Bool.false_eq_true, if_false]
  by_cases hb : (stripBullet (strip l)).isEmpty
  · simp [hb]
  · simp [hb]

theorem collectSection_cons_term (l : List Char) (rest : List (List Char))
    (h : isTermLine l = true) :
    collectSection (l :: rest) = [] := by
  rcases term_parts h with h1 | h1
  · unfold collectSection
    simp [h1]
  · unfold collectSection
    by_cases h2 : (strip l).isEmpty
    · simp [h2]
    · simp [h2, h1]

theorem collectSection_of_sec (sec rest : List (List Char))
    (hsec : ∀ l ∈ sec, isTermLine l = false)
    (hrest : rest = [] ∨ ∃ t ts, rest = t :: ts ∧ isTermLine t = true) :
    collectSection (sec ++ rest) = sec.filterMap lineItem := by
  induction sec with
  | nil =>
    rcases hrest with h1 | ⟨t, ts, h1, h2⟩
    · subst h1
      rfl
    · subst h1
      simpa using collectSection_cons_term t ts h2
  | cons l sec ih =>
    have hl := hsec l (List.mem_cons_self l sec)
    rw [List.cons_append, collectSection_cons_not_term l _ hl,
      ih fun x hx => hsec x (List.mem_cons_of_mem l hx), List.filterMap_cons]
    cases lineItem l <;> simp

theorem afterSection_of_sec (sec rest : List (List Char))
    (hsec : ∀ l ∈ sec, isTermLine l = false)
    (hrest : rest = [] ∨ ∃ t ts, rest = t :: ts ∧ isTermLine t = true) :
    afterSection (sec ++ rest) = rest := by
  induction sec with
  | nil =>
    rcases hrest with h1 | ⟨t, ts, h1, h2⟩
    · subst h1
      rfl
    · subst h1
      unfold afterSection
      rw [List.nil_append, List.dropWhile_cons_of_neg]
      simp [h2]
  | cons l sec ih =>
    have hl := hsec l (List.mem_cons_self l sec)
    rw [List.cons_append]
    unfold afterSection
    rw [List.dropWhile_cons_of_pos (by simp [hl])]
    exact ih fun x hx => hsec x (List.mem_cons_of_mem l hx)

theorem parseLoop_section (pre : List (List Char)) (h : List Char)
    (rest : List (List Char))
    (hpre : ∀ l ∈ pre, isHeaderLine l = false) (hh : isHeaderLine h = true) :
    parseLoop (pre ++ h :: rest) =
      collectSection rest ++ parseLoop (afterSection rest) := by
  rw [parseLoop_append_noheader pre _ hpre, parseLoop_cons, if_pos hh]

/-! ### Items produced by the inner loop -/

theorem isBulletLine_inv {s : List Char} (h : isBulletLine s = true) :
    ∃ c r, s = c :: ' ' :: r ∧ (c = '-' ∨ c = '•' ∨ c = '*') := by
  cases s with
  | nil => simp [isBulletLine] at h
  | cons c s2 =>
    cases s2 with
    | nil => simp [isBulletLine] at h
    | cons d r =>
      simp [isBulletLine] at h
      obtain ⟨hd, hc⟩ := h
      subst hd
      exact ⟨c, r, rfl, by tauto⟩

theorem getLast?_cons_ne_none (a : Char) (l : List Char) :
    (a :: l).getLast? ≠ none := by
  induction l generalizing a with
  | nil => simp
  | cons b t ih =>
    rw [List.getLast?_cons_cons]
    exact ih b

theorem stripBullet_strip_ne_nil {l : List Char} (h : isTermLine l = false) :
    stripBullet (strip l) ≠ [] := by
  obtain ⟨h1, _⟩ := not_term_parts h
  unfold stripBullet
  by_cases hb : isBulletLine (strip l)
  · rw [if_pos hb]
    obtain ⟨c, r, hs, _⟩ := isBulletLine_inv hb
    rw [hs]
    show strip r ≠ []
    intro hnil
    have hws := strip_eq_nil_iff.mp hnil
    cases r with
    | nil =>
      have hlast : (strip l).getLast? = some ' ' := by
        rw [hs, List.getLast?_cons_cons]
        rfl
      have h2 := strip_getLast?_false hlast
      exact absurd h2 (by decide)
    | cons r0 rr =>
      have hlast : (strip l).getLast? = (r0 :: rr).getLast? := by
        rw [hs, List.getLast?_cons_cons, List.getLast?_cons_cons]
      cases hg : (r0 :: rr).getLast? with
      | none => exact getLast?_cons_ne_none r0 rr hg
      | some z =>
        have hz := strip_getLast?_false (hlast.trans hg)
        have hzmem : z ∈ r0 :: rr := getLast?_mem_list hg
        rw [hws z hzmem] at hz
        cases hz
  · rw [if_neg hb]
    exact h1

theorem lineItem_not_term {l : List Char} (h : isTermLine l = false) :
    lineItem l = some (stripBullet (strip l)) := by
  unfold lineItem
  have h2 : (stripBullet (strip l)).isEmpty = false := by
    cases he : stripBullet (strip l) with
    | nil => exact absurd he (stripBullet_strip_ne_nil h)
    | cons a t => rfl
  simp [h2]

theorem strip_stripBullet_strip (l : List Char) :
    strip (stripBullet (strip l)) = stripBullet (strip l) := by
  unfold stripBullet
  by_cases hb : isBulletLine (strip l)
  · simp only [hb, if_true]
    exact strip_idem _
  · simp only [hb, Bool.false_eq_true, if_false]
    exact strip_idem l

theorem collectSection_mem {ls : List (List Char)} {x : List Char}
    (h : x ∈ collectSection ls) : x ≠ [] ∧ strip x = x := by
  induction ls with
  | nil => cases h
  | cons l rest ih =>
    by_cases ht : isTermLine l
    · rw [collectSection_cons_term l rest ht] at h
      cases h
    · have ht' : isTermLine l = false := by
        cases h2 : isTermLine l with
        | false => rfl
        | true => exact absurd h2 ht
      rw [collectSection_cons_not_term l rest ht'] at h
      rcases List.mem_append.mp h with h2 | h2
      · rw [lineItem_not_term ht'] at h2
        simp at h2
        subst h2
        exact ⟨stripBullet_strip_ne_nil ht', strip_stripBullet_strip l⟩
      · exact ih h2

theorem parseLoop_mem :
    ∀ ls : List (List Char), ∀ x ∈ parseLoop ls, x ≠ [] ∧ strip x = x := by
  intro ls
  induction ls using parseLoop.induct with
  | case1 =>
    intro x hx
    rw [parseLoop_nil] at hx
    cases hx
  | case2 raw rest hh ih =>
    intro x hx
    rw [parseLoop_cons, if_pos hh] at hx
    rcases List.mem_append.mp hx with h2 | h2
    · exact collectSection_mem h2
    · exact ih x h2
  | case3 raw rest hh ih =>
    intro x hx
    rw [parseLoop_cons, if_neg hh] at hx
    exact ih x hx

/-! ### Deduplication lemmas -/

theorem dedupGo_congr {α : Type} [DecidableEq α] :
    ∀ (l s1 s2 : List α), (∀ a, a ∈ s1 ↔ a ∈ s2) → dedupGo s1 l = dedupGo s2 l := by
  intro l
  induction l with
  | nil => intro s1 s2 _; rfl
  | cons r rs ih =>
    intro s1 s2 hs
    unfold dedupGo
    by_cases hr : r ∈ s1
    · rw [if_pos hr, if_pos ((hs r).mp hr)]
      exact ih s1 s2 hs
    · rw [if_neg hr, if_neg (fun hx => hr ((hs r).mpr hx))]
      have h2 := ih (r :: s1) (r :: s2) (by intro a; simp [hs a])
      rw [h2]

theorem dedupGo_cons_filter {α : Type} [DecidableEq α] :
    ∀ (l : List α) (x : α) (seen : List α),
      dedupGo (x :: seen) l = dedupGo seen (l.filter fun y => decide (y ≠ x)) := by
  intro l
  induction l with
  | nil => intro x seen; rfl
  | cons r rs ih =>
    intro x seen
    by_cases hrx : r = x
    · subst hrx
      show (if r ∈ r :: seen then dedupGo (r :: seen) rs
            else r :: dedupGo (r :: r :: seen) rs) =
        dedupGo seen ((r :: rs).filter fun y => decide (y ≠ r))
      rw [if_pos (List.mem_cons_self r seen)]
      have hf : ((r :: rs).filter fun y => decide (y ≠ r)) =
          rs.filter fun y => decide (y ≠ r) := by
        simp [List.filter_cons]
      rw [hf]
      exact ih r seen
    · have hf : ((r :: rs).filter fun y => decide (y ≠ x)) =
          r :: rs.filter fun y => decide (y ≠ x) := by
        simp [List.filter_cons, hrx]
      rw [hf]
      show (if r ∈ x :: seen then dedupGo (x :: seen) rs
            else r :: dedupGo (r :: x :: seen) rs) =
        if r ∈ seen then dedupGo seen (rs.filter fun y => decide (y ≠ x))
        else r :: dedupGo (r :: seen) (rs.filter fun y => decide (y ≠ x))
      by_cases hr : r ∈ seen
      · rw [if_pos (List.mem_cons_of_mem x hr), if_pos hr]
        exact ih x seen
      · rw [if_neg (by simp [hrx, hr]), if_neg hr]
        have h3 : dedupGo (r :: x :: seen) rs = dedupGo (x :: r :: seen) rs :=
          dedupGo_congr rs _ _ (by intro a; constructor <;> (intro h4; simp at h4; simp [h4]; tauto))
      
        rw [h3, ih x (r :: seen)]

theorem dedupGo_sublist {α : Type} [DecidableEq α] :
    ∀ (l seen : List α), (dedupGo seen l).Sublist l := by
  intro l
  induction l with
  | nil => intro seen; exact List.Sublist.refl []
  | cons r rs ih =>
    intro seen
    unfold dedupGo
    by_cases hr : r ∈ seen
    · rw [if_pos hr]
      exact (ih seen).cons r
    · rw [if_neg hr]
      exact (ih (r :: seen)).cons₂ r

/-! ### Characterisation of the header matcher -/

theorem strip_sandwich (lead mid trail : List Char)
    (hl : ∀ c ∈ lead, isWS c = true) (ht : ∀ c ∈ trail, isWS c = true)
    (hhead : ∀ c t, mid = c :: t → isWS c = false)
    (hlast : ∀ c, mid.getLast? = some c → isWS c = false) :
    strip (lead ++ (mid ++ trail)) = mid := by
  cases hm : mid with
  | nil =>
    subst hm
    rw [strip_eq_nil_iff]
    intro c hc
    rcases List.mem_append.mp hc with h2 | h2
    · exact hl c h2
    · exact ht c (by simpa using h2)
  | cons c t =>
    have hc : isWS c = false := hhead c t hm
    have h1 : stripLeft (lead ++ (mid ++ trail)) = mid ++ trail := by
      unfold stripLeft
      rw [dropWhile_append_all _ hl, hm, List.cons_append,
        dropWhile_cons_head_false _ hc, ← List.cons_append, ← hm]
    have hgl : ∃ z, mid.getLast? = some z := by
      rw [hm]
      cases hg : (c :: t).getLast? with
      | none => exact absurd hg (getLast?_cons_ne_none c t)
      | some z => exact ⟨z, rfl⟩
    obtain ⟨z, hz⟩ := hgl
    have hzws : isWS z = false := hlast z hz
    have h2 : stripRight (mid ++ trail) = mid := by
      unfold stripRight
      rw [List.reverse_append,
        dropWhile_append_all _ (fun x hx => ht x (List.mem_reverse.mp hx))]
      cases hrev : mid.reverse with
      | nil =>
        rw [List.reverse_eq_nil_iff] at hrev
        rw [hrev] at hm
        cases hm
      | cons b u =>
        have hb : b = z := by
          have h3 : mid.reverse.head? = some b := by rw [hrev]; rfl
          rw [List.head?_reverse, hz] at h3
          injection h3 with h4
          exact h4.symm
        rw [dropWhile_cons_head_false u (hb ▸ hzws)]
        have h5 := congrArg List.reverse hrev
        simpa using h5.symm
    rw [← hm]
    unfold strip
    rw [h1, h2]

theorem matchHeader_sound {s : List Char} (h : matchHeader s = true) :
    ∃ ws1 yl ws2 r2, s = ws1 ++ (yl ++ (ws2 ++ ':' :: r2)) ∧
      (∀ c ∈ ws1, isWS c = true) ∧ yl.map Char.toLower = headerChars ∧
      (∀ c ∈ ws2, isWS c = true) ∧ ∀ c ∈ r2, isWS c = true := by
  unfold matchHeader at h
  cases hd : dropLitCI headerChars (s.dropWhile isWS) with
  | none => rw [hd] at h; cases h
  | some r =>
    rw [hd] at h
    have h1 : (match r.dropWhile isWS with
        | c :: r2 => c == ':' && (r2.dropWhile isWS).isEmpty
        | [] => false) = true := h
    cases hr : r.dropWhile isWS with
    | nil =>
      rw [hr] at h1
      exact Bool.noConfusion h1
    | cons a r2 =>
      rw [hr] at h1
      have h1' : (a == ':' && (r2.dropWhile isWS).isEmpty) = true := h1
      rw [Bool.and_eq_true] at h1'
      have ha : a = ':' := beq_iff_eq.mp h1'.1
      subst ha
      have hr2 : ∀ c ∈ r2, isWS c = true := by
        have h2 : r2.dropWhile isWS = [] := by
          have h3 := h1'.2
          cases hdw : r2.dropWhile isWS with
          | nil => rfl
          | cons b u => rw [hdw] at h3; cases h3
        exact List.dropWhile_eq_nil_iff.mp h2
      obtain ⟨yl, hsl, hmap⟩ := dropLitCI_sound _ _ _ hd
      refine ⟨s.takeWhile isWS, yl, r.takeWhile isWS, r2, ?_, ?_, ?_, ?_, hr2⟩
      · calc s = s.takeWhile isWS ++ s.dropWhile isWS :=
            (List.takeWhile_append_dropWhile _ _).symm
        _ = s.takeWhile isWS ++ (yl ++ r) := by rw [hsl]
        _ = s.takeWhile isWS ++ (yl ++ (r.takeWhile isWS ++ r.dropWhile isWS)) := by
            rw [List.takeWhile_append_dropWhile]
        _ = s.takeWhile isWS ++ (yl ++ (r.takeWhile isWS ++ ':' :: r2)) := by rw [hr]
      · intro c hc
        exact List.mem_takeWhile_imp hc
      · rw [hmap]
        decide
      · intro c hc
        exact List.mem_takeWhile_imp hc

theorem matchHeader_complete (ws1 yl ws2 r2 : List Char)
    (hws1 : ∀ c ∈ ws1, isWS c = true) (hmap : yl.map Char.toLower = headerChars)
    (hws2 : ∀ c ∈ ws2, isWS c = true) (hr2 : ∀ c ∈ r2, isWS c = true) :
    matchHeader (ws1 ++ (yl ++ (ws2 ++ ':' :: r2))) = true := by
  have hyl : ∃ y0 ylr, yl = y0 :: ylr ∧ Char.toLower y0 = 'y' := by
    cases yl with
    | nil =>
      exfalso
      have h2 := congrArg List.length hmap
      simp [headerChars] at h2
    | cons y0 ylr =>
      refine ⟨y0, ylr, rfl, ?_⟩
      have h2 := congrArg List.head? hmap
      simp [headerChars] at h2
      exact h2
  obtain ⟨y0, ylr, hyl0, hy0⟩ := hyl
  have hy0ws : isWS y0 = false := toLower_y_not_ws hy0
  have hdw : (ws1 ++ (yl ++ (ws2 ++ ':' :: r2))).dropWhile isWS =
      yl ++ (ws2 ++ ':' :: r2) := by
    rw [dropWhile_append_all _ hws1, hyl0, List.cons_append,
      dropWhile_cons_head_false _ hy0ws, ← List.cons_append, ← hyl0]
  have hlit : dropLitCI headerChars (yl ++ (ws2 ++ ':' :: r2)) =
      some (ws2 ++ ':' :: r2) := by
    apply dropLitCI_complete
    rw [hmap]
    decide
  have hdw2 : (ws2 ++ ':' :: r2).dropWhile isWS = ':' :: r2 := by
    rw [dropWhile_append_all _ hws2]
    exact dropWhile_cons_head_false r2 (by decide)
  unfold matchHeader
  rw [hdw, hlit]
  show (match (ws2 ++ ':' :: r2).dropWhile isWS with
      | c :: u => c == ':' && (u.dropWhile isWS).isEmpty
      | [] => false) = true
  rw [hdw2]
  show (':' == ':' && ((r2.dropWhile isWS)).isEmpty) = true
  simp only [beq_self_eq_true, Bool.true_and]
  rw [List.dropWhile_eq_nil_iff.mpr hr2]
  rfl

theorem isHeaderLine_iff (l : List Char) :
    isHeaderLine l = true ↔
      ∃ lead yl mid trail, l = lead ++ (yl ++ (mid ++ ':' :: trail)) ∧
        (∀ c ∈ lead, isWS c = true) ∧ yl.map Char.toLower = headerChars ∧
        (∀ c ∈ mid, isWS c = true) ∧ ∀ c ∈ trail, isWS c = true := by
  constructor
  · intro h
    obtain ⟨ws1, yl, ws2, r2, hdec, hws1, hmap, hws2, hr2⟩ :=
      matchHeader_sound (s := strip l) h
    obtain ⟨lead0, trail0, hl0, hlead0, htrail0⟩ := strip_decomp l
    refine ⟨lead0 ++ ws1, yl, ws2, r2 ++ trail0, ?_, ?_, hmap, hws2, ?_⟩
    · rw [hl0, hdec]
      simp [List.append_assoc]
    · intro c hc
      rcases List.mem_append.mp hc with h2 | h2
      · exact hlead0 c h2
      · exact hws1 c h2
    · intro c hc
      rcases List.mem_append.mp hc with h2 | h2
      · exact hr2 c h2
      · exact htrail0 c h2
  · intro h
    obtain ⟨lead, yl, mid, trail, hdec, hlead, hmap, hmid, htrail⟩ := h
    have hylne : ∃ y0 ylr, yl = y0 :: ylr ∧ Char.toLower y0 = 'y' := by
      cases yl with
      | nil =>
        exfalso
        have h2 := congrArg List.length hmap
        simp [headerChars] at h2
      | cons y0 ylr =>
        refine ⟨y0, ylr, rfl, ?_⟩
        have h2 := congrArg List.head? hmap
        simp [headerChars] at h2
        exact h2
    obtain ⟨y0, ylr, hyl0, hy0⟩ := hylne
    have hstrip : strip l = yl ++ (mid ++ [':']) := by
      rw [hdec]
      have h2 : lead ++ (yl ++ (mid ++ ':' :: trail)) =
          lead ++ ((yl ++ (mid ++ [':'])) ++ trail) := by
        simp [List.append_assoc]
      rw [h2]
      apply strip_sandwich
      · exact hlead
      · exact htrail
      · intro c t hct
        rw [hyl0, List.cons_append] at hct
        have hcy : c = y0 := by
          have h3 := congrArg List.head? hct
          simp at h3
          exact h3.symm
        rw [hcy]
        exact toLower_y_not_ws hy0
      · intro c hct
        have h3 : (yl ++ (mid ++ [':'])).getLast? = some ':' := by
          rw [← List.append_assoc]
          exact List.getLast?_concat _
        rw [h3] at hct
        injection hct with h4
        rw [← h4]
        decide
    have h5 := matchHeader_complete [] yl mid []
      (by intro c hc; cases hc) hmap hmid (by intro c hc; cases hc)
    unfold isHeaderLine
    rw [hstrip]
    simpa using h5

/-! ### Remaining helper lemmas for the claims -/

theorem text_ne_nil_of_splitlines {text : List Char} {ls : List (List Char)}
    (h : splitlines text = ls) (hne : ls ≠ []) : text.isEmpty = false := by
  cases text with
  | nil =>
    exfalso
    apply hne
    rw [← h]
    rfl
  | cons a t => rfl

theorem filterMap_lineItem_eq_map (items : List (List Char))
    (h : ∀ l ∈ items, isTermLine l = false) :
    items.filterMap lineItem = items.map fun l => stripBullet (strip l) := by
  induction items with
  | nil => rfl
  | cons l rest ih =>
    rw [List.filterMap_cons, lineItem_not_term (h l (List.mem_cons_self l rest)),
      List.map_cons, ih fun x hx => h x (List.mem_cons_of_mem l hx)]

/-! ### The claims -/

/-- C1: for an input text whose lines consist of a header-free prefix, a line
matching the section header, `N` lines none of which trims to empty or to a
colon-terminated string, and then a blank line (or end of input) followed by
further header-free lines, `parse_youtube_links` returns exactly those `N`
lines in document order, each trimmed and with a recognised two-character
bullet prefix removed. -/
theorem claim1_single_section_extraction
    (text : List Char) (pre : List (List Char)) (h : List Char)
    (items post : List (List Char))
    (hsplit : splitlines text = pre ++ h :: (items ++ post))
    (hpre : ∀ l ∈ pre, isHeaderLine l = false)
    (hh : isHeaderLine h = true)
    (hitems : ∀ l ∈ items, isTermLine l = false)
    (hpost : post = [] ∨ ∃ t ts, post = t :: ts ∧ strip t = [])
    (hpostnh : ∀ l ∈ post, isHeaderLine l = false) :
    parse_youtube_links text = items.map fun l => stripBullet (strip l) := by
  have htext : text.isEmpty = false :=
    text_ne_nil_of_splitlines hsplit (by simp)
  have hpost' : post = [] ∨ ∃ t ts, post = t :: ts ∧ isTermLine t = true := by
    rcases hpost with h1 | ⟨t, ts, h1, h2⟩
    · exact Or.inl h1
    · refine Or.inr ⟨t, ts, h1, ?_⟩
      unfold isTermLine
      rw [h2]
      rfl
  unfold parse_youtube_links
  rw [htext]
  simp only [Bool.false_eq_true, if_false]
  rw [hsplit, parseLoop_section pre h _ hpre hh,
    collectSection_of_sec items post hitems hpost',
    afterSection_of_sec items post hitems hpost',
    parseLoop_eq_nil_of_noheader post hpostnh, List.append_nil]
  exact filterMap_lineItem_eq_map items hitems

/-- Witness for C1, the spec's end-to-end scenario. -/
theorem claim1_witness :
    parse_youtube_links "Youtube Links:\n- https://a\n- https://b\n\nOther:\nx".data
      = ["https://a".data, "https://b".data] := by
  rw [claim1_single_section_extraction
    "Youtube Links:\n- https://a\n- https://b\n\nOther:\nx".data
    [] "Youtube Links:".data ["- https://a".data, "- https://b".data]
    ["".data, "Other:".data, "x".data]
    (by decide) (by decide) (by decide) (by decide)
    (Or.inr ⟨"".data, ["Other:".data, "x".data], by decide, by decide⟩)
    (by decide)]
  decide

/-- C6: the extractor is a total function, and whenever no line of the input
matches the header (including for empty input) it returns the empty list. -/
theorem claim6_no_header_empty
    (text : List Char)
    (h : ∀ l ∈ splitlines text, isHeaderLine l = false) :
    parse_youtube_links text = [] := by
  unfold parse_youtube_links
  by_cases he : text.isEmpty = true
  · rw [if_pos he]
  · rw [if_neg he]
    exact parseLoop_eq_nil_of_noheader _ h

/-- Witness for C6. -/
theorem claim6_witness :
    parse_youtube_links "no links here\njust text, really".data = [] :=
  claim6_no_header_empty _ (by decide)

/-- C3 (amended): after a matched header the extractor collects the section and
then resumes the scan at the terminator line itself (not after it), so that a
colon-terminated terminator can itself start the next section; all matched
sections' items accumulate in document order. -/
theorem claim3_multi_section_resume
    (text : List Char) (pre : List (List Char)) (h : List Char)
    (rest : List (List Char))
    (hsplit : splitlines text = pre ++ h :: rest)
    (hpre : ∀ l ∈ pre, isHeaderLine l = false)
    (hh : isHeaderLine h = true) :
    parse_youtube_links text = collectSection rest ++ parseLoop (afterSection rest) := by
  have htext : text.isEmpty = false :=
    text_ne_nil_of_splitlines hsplit (by simp)
  unfold parse_youtube_links
  rw [htext]
  simp only [Bool.false_eq_true, if_false]
  rw [hsplit]
  exact parseLoop_section pre h rest hpre hh

/-- Witness for C3's amended statement. -/
theorem claim3_witness :
    parse_youtube_links "Youtube Links:\na\nYoutube Links:\nb".data
      = collectSection ["a".data, "Youtube Links:".data, "b".data]
        ++ parseLoop (afterSection ["a".data, "Youtube Links:".data, "b".data]) :=
  claim3_multi_section_resume
    "Youtube Links:\na\nYoutube Links:\nb".data
    [] "Youtube Links:".data ["a".data, "Youtube Links:".data, "b".data]
    (by decide) (by decide) (by decide)

/-- C4: item collection starts immediately after the header line and stops at
the first subsequent line that trims to empty or to a colon-terminated string;
the terminating line itself contributes no item. -/
theorem claim4_section_termination
    (text : List Char) (pre : List (List Char)) (h : List Char)
    (sec : List (List Char)) (t : List Char) (rest : List (List Char))
    (hsplit : splitlines text = pre ++ h :: (sec ++ t :: rest))
    (hpre : ∀ l ∈ pre, isHeaderLine l = false)
    (hh : isHeaderLine h = true)
    (hsec : ∀ l ∈ sec, isTermLine l = false)
    (ht : isTermLine t = true)
    (hrest : ∀ l ∈ t :: rest, isHeaderLine l = false) :
    parse_youtube_links text = sec.filterMap lineItem := by
  have htext : text.isEmpty = false :=
    text_ne_nil_of_splitlines hsplit (by simp)
  have hshape : sec ++ t :: rest = sec ++ t :: rest := rfl
  unfold parse_youtube_links
  rw [htext]
  simp only [Bool.false_eq_true, if_false]
  rw [hsplit, parseLoop_section pre h _ hpre hh,
    collectSection_of_sec sec (t :: rest) hsec (Or.inr ⟨t, rest, rfl, ht⟩),
    afterSection_of_sec sec (t :: rest) hsec (Or.inr ⟨t, rest, rfl, ht⟩),
    parseLoop_eq_nil_of_noheader (t :: rest) hrest, List.append_nil]

/-- Witness for C4: a section cut short by a new section header. -/
theorem claim4_witness :
    parse_youtube_links "Youtube Links:\n- a\nOther Section:\nb".data
      = ["a".data] := by
  rw [claim4_section_termination
    "Youtube Links:\n- a\nOther Section:\nb".data
    [] "Youtube Links:".data ["- a".data] "Other Section:".data ["b".data]
    (by decide) (by decide) (by decide) (by decide) (by decide) (by decide)]
  decide

/-- C2 counterexample: the code's header regex makes the colon mandatory,
while the claim declares it optional.  The line "youtube links" (no colon)
satisfies the claim's criterion, yet the code rejects it: a section under
that line yields nothing. -/
theorem claim2_counterexample :
    specHeaderMatchOptColon "youtube links".data = true ∧
      isHeaderLine "youtube links".data = false ∧
      parse_youtube_links "youtube links\nhttps://a".data = [] := by
  refine ⟨by decide, by decide, ?_⟩
  unfold parse_youtube_links
  rw [if_neg (by decide)]
  exact parseLoop_eq_nil_of_noheader _ (by decide)

/-- C2 (amended): a line is treated as a section-header match if and only if
it consists of whitespace, the label "youtube links" up to letter case, then
optional whitespace, then a *mandatory* colon, then only whitespace; in
particular a line containing the label merely as an inner substring never
matches. -/
theorem claim2_header_requires_colon (l : List Char) :
    isHeaderLine l = true ↔
      ∃ lead yl mid trail, l = lead ++ (yl ++ (mid ++ ':' :: trail)) ∧
        (∀ c ∈ lead, isWS c = true) ∧ yl.map Char.toLower = headerChars ∧
        (∀ c ∈ mid, isWS c = true) ∧ ∀ c ∈ trail, isWS c = true :=
  isHeaderLine_iff l

/-- Witness for C2's amended statement. -/
theorem claim2_witness :
    ∃ lead yl mid trail,
      "  YOUTUBE LINKS : ".data = lead ++ (yl ++ (mid ++ ':' :: trail)) ∧
        (∀ c ∈ lead, isWS c = true) ∧ yl.map Char.toLower = headerChars ∧
        (∀ c ∈ mid, isWS c = true) ∧ ∀ c ∈ trail, isWS c = true :=
  (claim2_header_requires_colon "  YOUTUBE LINKS : ".data).mp (by decide)

/-- C5: bullet markers are stripped exactly when immediately followed by a
space (removing that two-character prefix and re-trimming); a bare marker is
left untouched; no empty item is ever emitted; and the spec's example holds. -/
theorem claim5_bullet_stripping :
    (parse_youtube_links "Youtube Links:\n- a\n• b\n* c\nd".data
        = ["a".data, "b".data, "c".data, "d".data]) ∧
      (∀ (c : Char) (rest : List Char), c = '-' ∨ c = '•' ∨ c = '*' →
        stripBullet (c :: ' ' :: rest) = strip rest) ∧
      (∀ line : List Char, isBulletLine line = false → stripBullet line = line) ∧
      ∀ ls : List (List Char), [] ∉ collectSection ls := by
  refine ⟨?_, ?_, ?_, ?_⟩
  · simp [parse_youtube_links, parseLoop, splitlines, splitlinesGo, collectSection,
      afterSection, strip, stripLeft, stripRight, stripBullet, isBulletLine,
      endsWithColon, isTermLine, isHeaderLine, matchHeader, dropLitCI, eqCI,
      headerChars, isWS, List.dropWhile]
  · intro c rest hc
    have hb : isBulletLine (c :: ' ' :: rest) = true := by
      rcases hc with h | h | h <;> subst h <;> rfl
    simp only [stripBullet, hb, if_true]
    rfl
  · intro line hl
    simp only [stripBullet, hl, Bool.false_eq_true, if_false]
  · intro ls hmem
    exact (collectSection_mem hmem).1 rfl

/-- Witness for C5. -/
theorem claim5_witness :
    stripBullet ('-' :: ' ' :: 'x' :: []) = strip ('x' :: []) :=
  claim5_bullet_stripping.2.1 '-' ('x' :: []) (Or.inl rfl)

/-- C9: every string returned by the extractor is non-empty and equal to its
own trimmed form. -/
theorem claim9_items_trimmed
    (text x : List Char) (hx : x ∈ parse_youtube_links text) :
    x ≠ [] ∧ strip x = x := by
  unfold parse_youtube_links at hx
  by_cases he : text.isEmpty = true
  · rw [if_pos he] at hx
    cases hx
  · rw [if_neg he] at hx
    exact parseLoop_mem _ x hx

/-- Witness for C9. -/
theorem claim9_witness :
    "https://a".data ≠ ([] : List Char) ∧
      strip "https://a".data = "https://a".data :=
  claim9_items_trimmed "Youtube Links:\nhttps://a".data "https://a".data
    (by simp [parse_youtube_links, parseLoop, splitlines, splitlinesGo,
      collectSection, afterSection, strip, stripLeft, stripRight, stripBullet,
      isBulletLine, endsWithColon, isTermLine, isHeaderLine, matchHeader,
      dropLitCI, eqCI, headerChars, isWS, List.dropWhile])

/-- C10: bullet stripping is applied at most once per collected line: a line
carrying two nested markers loses only the outer one, and the inner marker
survives in the emitted item. -/
theorem claim10_nested_bullet :
    (parse_youtube_links "Youtube Links:\n- • x".data
        = [('•' :: ' ' :: 'x' :: [])]) ∧
      ∀ rest : List Char, rest ≠ [] → strip rest = rest →
        stripBullet ('-' :: ' ' :: '•' :: ' ' :: rest) = '•' :: ' ' :: rest := by
  constructor
  · simp [parse_youtube_links, parseLoop, splitlines, splitlinesGo, collectSection,
      afterSection, strip, stripLeft, stripRight, stripBullet, isBulletLine,
      endsWithColon, isTermLine, isHeaderLine, matchHeader, dropLitCI, eqCI,
      headerChars, isWS, List.dropWhile]
  · intro rest h1 h2
    have hb : isBulletLine ('-' :: ' ' :: '•' :: ' ' :: rest) = true := rfl
    simp only [stripBullet, hb, if_true]
    show strip ('•' :: ' ' :: rest) = '•' :: ' ' :: rest
    have hsw := strip_sandwich [] ('•' :: ' ' :: rest) []
      (by intro c hc; cases hc) (by intro c hc; cases hc)
      (by
        intro c t hct
        have h3 := congrArg List.head? hct
        simp at h3
        rw [← h3]
        decide)
      (by
        intro c hct
        cases rest with
        | nil => exact absurd rfl h1
        | cons r0 rr =>
          rw [List.getLast?_cons_cons, List.getLast?_cons_cons] at hct
          exact strip_getLast?_false (s := r0 :: rr) (by rw [h2]; exact hct))
    simpa using hsw

/-- Witness for C10. -/
theorem claim10_witness :
    stripBullet ('-' :: ' ' :: '•' :: ' ' :: 'x' :: []) = '•' :: ' ' :: 'x' :: [] :=
  claim10_nested_bullet.2 ('x' :: []) (by decide) (by decide)

/-- C7: the aggregation step deduplicates on the (source, link) pair, keeping
exactly the first occurrence of each pair (later occurrences are dropped) and
preserving first-seen order (the output is a sublist of the input); the same
link in two documents keeps both rows, while the same link twice in one
document collapses to one row. -/
theorem claim7_dedup_first_seen :
    (∀ (x : List Char × List Char) (l : List (List Char × List Char)),
        dedup (x :: l) = x :: dedup (l.filter fun y => decide (y ≠ x))) ∧
      (∀ l : List (List Char × List Char), (dedup l).Sublist l) ∧
      aggregate [("a.pdf".data, "Youtube Links:\nhttps://youtu.be/x".data),
                 ("b.pdf".data, "Youtube Links:\nhttps://youtu.be/x".data)]
        = [("a.pdf".data, "https://youtu.be/x".data),
           ("b.pdf".data, "https://youtu.be/x".data)] ∧
      aggregate [("a.pdf".data,
          "Youtube Links:\nhttps://youtu.be/x\nhttps://youtu.be/x".data)]
        = [("a.pdf".data, "https://youtu.be/x".data)] := by
  have hparse : parse_youtube_links "Youtube Links:\nhttps://youtu.be/x".data
      = ["https://youtu.be/x".data] := by
    simp [parse_youtube_links, parseLoop, splitlines, splitlinesGo, collectSection,
      afterSection, strip, stripLeft, stripRight, stripBullet, isBulletLine,
      endsWithColon, isTermLine, isHeaderLine, matchHeader, dropLitCI, eqCI,
      headerChars, isWS, List.dropWhile]
  have hparse2 : parse_youtube_links
      "Youtube Links:\nhttps://youtu.be/x\nhttps://youtu.be/x".data
      = ["https://youtu.be/x".data, "https://youtu.be/x".data] := by
    simp [parse_youtube_links, parseLoop, splitlines, splitlinesGo, collectSection,
      afterSection, strip, stripLeft, stripRight, stripBullet, isBulletLine,
      endsWithColon, isTermLine, isHeaderLine, matchHeader, dropLitCI, eqCI,
      headerChars, isWS, List.dropWhile]
  refine ⟨?_, ?_, ?_, ?_⟩
  · intro x l
    show (if x ∈ ([] : List (List Char × List Char)) then dedupGo [] l
          else x :: dedupGo [x] l) = x :: dedup (l.filter fun y => decide (y ≠ x))
    rw [if_neg (List.not_mem_nil x), dedupGo_cons_filter l x []]
    rfl
  · intro l
    exact dedupGo_sublist l []
  · unfold aggregate
    rw [List.flatMap_cons, List.flatMap_cons, List.flatMap_nil, hparse]
    decide
  · unfold aggregate
    rw [List.flatMap_cons, List.flatMap_nil, hparse2]
    decide

/-- C8 counterexample: `safe_filename` also trims surrounding whitespace from
the mapped result, which the claim omits: on input " a " the claim's
description keeps the spaces (they are retained characters) but the code
returns "a", and a whitespace-only input falls back to the default even
though character mapping leaves it non-empty. -/
theorem claim8_counterexample :
    specSafeFilenameNoStrip " a ".data = " a ".data ∧
      safe_filename " a ".data = "a".data ∧
      specSafeFilenameNoStrip "  ".data = "  ".data ∧
      safe_filename "  ".data = "unnamed".data := by
  refine ⟨by decide, by decide, by decide, by decide⟩

/-- C8 (amended): `safe_filename` keeps alphanumerics, space, hyphen,
underscore and dot, replaces every other character with an underscore, trims
surrounding whitespace from the result, and falls back to the default name
exactly when the trimmed result is empty. -/
theorem claim8_safe_filename_strips :
    (∀ name, safe_filename name = specSafeFilenameStripped name) ∧
      safe_filename "a/b:c".data = "a_b_c".data ∧
      safe_filename "".data = "unnamed".data := by
  refine ⟨?_, by decide, by decide⟩
  intro name
  unfold safe_filename specSafeFilenameStripped
  simp only [keepChar]
  by_cases hs : strip (name.map fun c =>
      if c.isAlphanum || c == ' ' || c == '-' || c == '_' || c == '.' then c
      else '_') = []
  · simp [hs]
  · simp [hs, List.isEmpty_iff]

/-- C3 counterexample: the code resumes scanning *at* the terminator line
(`i = j`), not just after it.  When one section's colon-terminated terminator
is itself a header line, the code starts a new section there and returns both
items, whereas the claim's resume-after-terminator procedure would skip the
second header and return only the first item. -/
theorem claim3_counterexample :
    parse_youtube_links "Youtube Links:\na\nYoutube Links:\nb".data
        = ["a".data, "b".data] ∧
      parseLoopSpecResume (splitlines "Youtube Links:\na\nYoutube Links:\nb".data)
        = ["a".data] := by
  constructor
  · simp [parse_youtube_links, parseLoop, splitlines, splitlinesGo, collectSection,
      afterSection, strip, stripLeft, stripRight, stripBullet, isBulletLine,
      endsWithColon, isTermLine, isHeaderLine, matchHeader, dropLitCI, eqCI,
      headerChars, isWS, List.dropWhile]
  · simp [parseLoopSpecResume, splitlines, splitlinesGo, collectSection,
      afterSection, strip, stripLeft, stripRight, stripBullet, isBulletLine,
      endsWithColon, isTermLine, isHeaderLine, matchHeader, dropLitCI, eqCI,
      headerChars, isWS, List.dropWhile]
